import Mathlib

/-!
Verification of the Scopa rules engine (`scopa.py`).

The Python source is shallowly embedded below.  Mutable `Match` state
becomes the structure `MState`; methods become pure functions on it.
Python exceptions are modelled with `Option`/`Except`: a `play_card`
call that raises `ValueError` returns `.error st` where `st` is the
state as left behind by the partially-executed method (Python mutations
performed before the raise persist on the object).
-/

set_option autoImplicit false

namespace Scopa

/-- Cards are `(value, suit)` pairs; the deck uses values 1..10 and the
four suits 0 = Spade, 1 = Coppe, 2 = Denari, 3 = Bastoni
(`SUIT_NAMES` in the source).  All cards manipulated by the engine come
from the 40-card deck, so the suit is modelled as `Fin 4`. -/
structure Card where
  value : Nat
  suit : Fin 4
deriving DecidableEq, Repr

/-- Suit short names, `SUIT_SHORTNAMES = [s[0] for s in SUIT_NAMES]`. -/
def SUIT_SHORTNAMES : List Char := ['S', 'C', 'D', 'B']

/-- The primiera point table `PRIMIERA_POINTS`, a
`defaultdict(int, {...})`: values outside the table map to 0. -/
def PRIMIERA_POINTS : Nat → Nat
  | 1 => 16
  | 2 => 12
  | 3 => 13
  | 4 => 14
  | 5 => 15
  | 6 => 18
  | 7 => 21
  | 8 => 10
  | 9 => 10
  | 10 => 10
  | _ => 0

def SETTEBELLO_SUIT : Fin 4 := 2

def SETTEBELLO_VALUE : Nat := 7

def SETTEBELLO : Card := ⟨SETTEBELLO_VALUE, SETTEBELLO_SUIT⟩

/-- A trick: `Trick = namedtuple('Trick', ['card_played', 'cards_picked_up', 'scopa'])`.
`card_played` is `none` only for the synthetic final trick. -/
structure Trick where
  card_played : Option Card
  cards_picked_up : List Card
  scopa : Nat
deriving DecidableEq, Repr

/-- The two players (`Player(1)`, `Player(2)`). -/
inductive Player where
  | P1
  | P2
deriving DecidableEq, Repr

/-- The match state: deck, tabletop, per-player hands and trick piles,
last player to pick up, and the turn counter (`Match.__init__`). -/
structure MState where
  deck : List Card
  tabletop : List Card
  hand1 : List Card
  hand2 : List Card
  tricks1 : List Trick
  tricks2 : List Trick
  lastPlayerToPickup : Option Player
  turnNumber : Nat
deriving DecidableEq, Repr

def MState.hand (σ : MState) : Player → List Card
  | .P1 => σ.hand1
  | .P2 => σ.hand2

def MState.tricksOf (σ : MState) : Player → List Trick
  | .P1 => σ.tricks1
  | .P2 => σ.tricks2

def MState.setHand (σ : MState) (p : Player) (h : List Card) : MState :=
  match p with
  | .P1 => { σ with hand1 := h }
  | .P2 => { σ with hand2 := h }

def MState.setTricks (σ : MState) (p : Player) (t : List Trick) : MState :=
  match p with
  | .P1 => { σ with tricks1 := t }
  | .P2 => { σ with tricks2 := t }

/-- A fresh `Match` object over a given (already shuffled) deck:
empty hands, trick piles and tabletop, no last-pickup, turn 0. -/
def initState (deck : List Card) : MState :=
  { deck := deck, tabletop := [], hand1 := [], hand2 := [],
    tricks1 := [], tricks2 := [], lastPlayerToPickup := none, turnNumber := 0 }

/-- The 40-card deck as built by `Deck.__init__`:
`[Card(value, suit) for suit in range(4) for value in range(1, 11)]`. -/
def fullDeck : List Card :=
  (List.finRange 4).flatMap fun s => (List.range 10).map fun v => ⟨v + 1, s⟩

/-- The fixed deck of `TestMatch.initialize_deck` (dealt by popping from
the end of this list). -/
def testDeck : List Card :=
  [⟨4,1⟩,⟨5,2⟩,⟨5,1⟩,⟨8,1⟩,⟨4,3⟩,⟨1,2⟩,⟨3,0⟩,⟨6,1⟩,⟨9,1⟩,⟨7,2⟩,
   ⟨7,1⟩,⟨6,2⟩,⟨10,1⟩,⟨10,3⟩,⟨9,2⟩,⟨2,1⟩,⟨2,2⟩,⟨10,2⟩,⟨10,0⟩,⟨1,0⟩,
   ⟨3,1⟩,⟨4,0⟩,⟨5,0⟩,⟨2,0⟩,⟨2,3⟩,⟨7,3⟩,⟨8,0⟩,⟨5,3⟩,⟨6,3⟩,⟨3,3⟩,
   ⟨8,2⟩,⟨9,3⟩,⟨7,0⟩,⟨4,2⟩,⟨6,0⟩,⟨3,2⟩,⟨9,0⟩,⟨1,3⟩,⟨1,1⟩,⟨8,3⟩]

/-- `Deck.deal_cards(n)`: pop `n` cards from the end of the deck, in
popping order.  Python raises `IndexError` when fewer than `n` cards
remain (after having popped what was there); that failing call is
modelled as `none`. -/
def deal_cards (l : List Card) (n : Nat) : Option (List Card × List Card) :=
  if n ≤ l.length then some (l.reverse.take n, (l.reverse.drop n).reverse)
  else none

/-- `Match.deal_cards_to_table`: extend the tabletop with 4 dealt cards. -/
def dealToTable (σ : MState) : Option MState :=
  match deal_cards σ.deck 4 with
  | none => none
  | some x => some { σ with deck := x.2, tabletop := σ.tabletop ++ x.1 }

/-- `Match.deal_cards_to_players`: `self._hands[player] = deal_cards(3)`
for Player1 then Player2.  Note that the hands are REPLACED, not
extended. -/
def dealToPlayers (σ : MState) : Option MState :=
  match deal_cards σ.deck 3 with
  | none => none
  | some (h1, d1) =>
    match deal_cards d1 3 with
    | none => none
    | some (h2, d2) => some { σ with deck := d2, hand1 := h1, hand2 := h2 }

/-- `Match.verify_play(player, card_to_play, cards_from_table)`,
with its four early-return checks in source order. -/
def verify_play (σ : MState) (p : Player) (card_to_play : Card)
    (cards_from_table : List Card) : Bool :=
  if card_to_play ∉ σ.hand p then false
  else if cards_from_table.any fun c => c ∉ σ.tabletop then false
  else if cards_from_table ≠ [] ∧
      card_to_play.value ≠ (cards_from_table.map Card.value).sum then false
  else if 1 < cards_from_table.length ∧
      card_to_play.value ∈ σ.tabletop.map Card.value then false
  else true

/-- `list.remove(c)`: remove the first occurrence of `c`, `none` when
`c` is absent (Python raises `ValueError`, leaving the list unchanged). -/
def removeFirst (l : List Card) (c : Card) : Option (List Card) :=
  if c ∈ l then some (l.erase c) else none

/-- The loop `for card in cards_from_table: self._tabletop.remove(card)`.
On a failing `remove` the tabletop keeps the removals performed so far;
`.error` returns that partially-updated tabletop. -/
def removeSeq (table : List Card) : List Card → Except (List Card) (List Card)
  | [] => .ok table
  | c :: rest =>
    match removeFirst table c with
    | none => .error table
    | some t => removeSeq t rest

/-- `Match.play_card(player, card_to_play, cards_from_table)`.
The turn counter is incremented unconditionally at the top of the
method.  `.error st` models `raise`/`ValueError` with `st` the state of
the Python object at the moment of the raise. -/
def play_card (σ : MState) (p : Player) (card_to_play : Card)
    (cards_from_table : List Card) : Except MState MState :=
  let σ1 : MState := { σ with turnNumber := σ.turnNumber + 1 }
  if cards_from_table = [] then
    match removeFirst (σ1.hand p) card_to_play with
    | none => .error σ1
    | some h => .ok { σ1.setHand p h with tabletop := σ1.tabletop ++ [card_to_play] }
  else if verify_play σ1 p card_to_play cards_from_table then
    match removeFirst (σ1.hand p) card_to_play with
    | none => .error σ1
    | some h =>
      match removeSeq σ1.tabletop cards_from_table with
      | .error t => .error { σ1.setHand p h with tabletop := t }
      | .ok t =>
        let scopa_point : Nat := if t ≠ [] ∧ σ1.turnNumber ≠ 36 then 0 else 1
        let σ2 := (σ1.setHand p h).setTricks p
          (σ1.tricksOf p ++ [⟨some card_to_play, cards_from_table, scopa_point⟩])
        .ok { σ2 with tabletop := t, lastPlayerToPickup := some p }
  else .error σ1

/-- `itertools.combinations(s, r)` on lists, in the lexicographic order
of positions used by itertools. -/
def combinations {α : Type} : Nat → List α → List (List α)
  | 0, _ => [[]]
  | _ + 1, [] => []
  | r + 1, x :: xs => ((combinations r xs).map (x :: ·)) ++ combinations (r + 1) xs

/-- The `powerset` helper (itertools recipe):
`chain.from_iterable(combinations(s, r) for r in range(len(s)+1))`. -/
def powersetList {α : Type} (l : List α) : List (List α) :=
  (List.range (l.length + 1)).flatMap fun r => combinations r l

/-- The capture-enumeration loop of `Match.possible_plays`: for every
tabletop subset, for every hand card whose value equals the subset sum
and which passes `verify_play`, the pair `(card, subset)`. -/
def capture_plays (σ : MState) (p : Player) : List (Card × List Card) :=
  (powersetList σ.tabletop).flatMap fun cards_from_table =>
    let s := (cards_from_table.map Card.value).sum
    ((σ.hand p).filter fun c =>
        decide (c.value = s) && verify_play σ p c cards_from_table).map
      fun c => (c, cards_from_table)

/-- The placement loop of `Match.possible_plays`: for every hand card
not yet appearing as the played card of a listed play, append
`(card, ())`.  The guard consults the growing `plays` list, exactly as
the Python loop does. -/
def addPlacements (hand : List Card) (plays : List (Card × List Card)) :
    List (Card × List Card) :=
  match hand with
  | [] => plays
  | c :: rest =>
    if c ∈ plays.map Prod.fst then addPlacements rest plays
    else addPlacements rest (plays ++ [(c, [])])

/-- `Match.possible_plays(player)`. -/
def possible_plays (σ : MState) (p : Player) : List (Card × List Card) :=
  addPlacements (σ.hand p) (capture_plays σ p)

/-- All cards of a trick, `trick.cards_picked_up + (trick.card_played,)`
with the `if card:` filter dropping a `None` played card. -/
def allTrickCards (t : Trick) : List Card :=
  t.cards_picked_up ++ t.card_played.toList

/-- Accumulator of `Match.tally_tricks` for one player: scopa count,
card count, denari count, settebello flag, per-suit primiera best cards
and scores. -/
structure TallyAcc where
  numScopas : Nat
  numCards : Nat
  numDenari : Nat
  settebello : Nat
  primieraCards : Fin 4 → Card
  primieraScore : Fin 4 → Nat

def tallyInit : TallyAcc :=
  { numScopas := 0, numCards := 0, numDenari := 0, settebello := 0,
    primieraCards := fun s => ⟨0, s⟩, primieraScore := fun _ => 0 }

/-- The per-card body of the `tally_tricks` inner loop. -/
def tallyCard (acc : TallyAcc) (card : Card) : TallyAcc :=
  let acc := { acc with numCards := acc.numCards + 1 }
  let acc := if card.suit = SETTEBELLO_SUIT then
    { acc with numDenari := acc.numDenari + 1 } else acc
  let acc := if card = SETTEBELLO then { acc with settebello := 1 } else acc
  if PRIMIERA_POINTS card.value > acc.primieraScore card.suit then
    { acc with
      primieraCards := Function.update acc.primieraCards card.suit card,
      primieraScore := Function.update acc.primieraScore card.suit
        (PRIMIERA_POINTS card.value) }
  else acc

/-- The per-trick body of the `tally_tricks` outer loop. -/
def tallyTrick (acc : TallyAcc) (t : Trick) : TallyAcc :=
  (allTrickCards t).foldl tallyCard { acc with numScopas := acc.numScopas + t.scopa }

/-- `Match.tally_tricks` restricted to one player's trick pile. -/
def tallyPile (pile : List Trick) : TallyAcc :=
  pile.foldl tallyTrick tallyInit

/-- The `sum(primiera_score)` over the four suits stored in the tally. -/
def primieraSum (acc : TallyAcc) : Nat :=
  ((List.finRange 4).map acc.primieraScore).sum

/-- `Match.score_match`: per-player base points, then the primiera
comparison point. -/
def score_match (pile1 pile2 : List Trick) : Nat × Nat :=
  let t1 := tallyPile pile1
  let t2 := tallyPile pile2
  let p1 := t1.numScopas + (if t1.numCards > 20 then 1 else 0)
    + (if t1.numDenari > 5 then 1 else 0) + t1.settebello
  let p2 := t2.numScopas + (if t2.numCards > 20 then 1 else 0)
    + (if t2.numDenari > 5 then 1 else 0) + t2.settebello
  if primieraSum t1 > primieraSum t2 then (p1 + 1, p2)
  else if primieraSum t1 < primieraSum t2 then (p1, p2 + 1)
  else (p1, p2)

/-- Appending the synthetic end-of-match trick to player `p`. -/
def sweepTo (σ : MState) (p : Player) : MState :=
  (σ.setTricks p (σ.tricksOf p ++ [⟨none, σ.tabletop, 0⟩])) |>
    fun s => { s with tabletop := [] }

/-- The leftover-tabletop sweep at the end of `Match.play_random_match`
(and `play_test_match`): when the tabletop is non-empty its cards go to
`self._tricks[self._last_player_to_pickup]` as `Trick(None, table, 0)`.
When `_last_player_to_pickup` is still `None` that dictionary lookup
raises `KeyError`, modelled as `none`. -/
def finalSweep (σ : MState) : Option MState :=
  if σ.tabletop ≠ [] then
    match σ.lastPlayerToPickup with
    | none => none
    | some p => some (sweepTo σ p)
  else some σ

/-- All cards of a state as a multiset: remaining deck, tabletop, both
hands and all cards recorded in both trick piles. -/
def cardsOf (σ : MState) : Multiset Card :=
  (σ.deck : Multiset Card) + (σ.tabletop : Multiset Card)
    + (σ.hand1 : Multiset Card) + (σ.hand2 : Multiset Card)
    + ((σ.tricks1.flatMap allTrickCards : List Card) : Multiset Card)
    + ((σ.tricks2.flatMap allTrickCards : List Card) : Multiset Card)

/-- States reachable from a fresh match by the dealing operations at any
time (when they complete without raising) and by successful `play_card`
calls with duplicate-free capture lists — the reachability stated by the
conservation claim, with no restriction on when dealing may happen. -/
inductive Reach0 : MState → Prop
  | init (deck : List Card) : deck.Perm fullDeck → Reach0 (initState deck)
  | dealTable (σ σ' : MState) : Reach0 σ → dealToTable σ = some σ' → Reach0 σ'
  | dealPlayers (σ σ' : MState) : Reach0 σ → dealToPlayers σ = some σ' → Reach0 σ'
  | play (σ σ' : MState) (p : Player) (c : Card) (cft : List Card) :
      Reach0 σ → cft.Nodup → play_card σ p c cft = .ok σ' → Reach0 σ'

/-- Reachability as in `Reach0` but with `deal_cards_to_players`
restricted to states where both hands are empty, the way the match
driver invokes it (hands are topped up only between rounds). -/
inductive ReachA : MState → Prop
  | init (deck : List Card) : deck.Perm fullDeck → ReachA (initState deck)
  | dealTable (σ σ' : MState) : ReachA σ → dealToTable σ = some σ' → ReachA σ'
  | dealPlayers (σ σ' : MState) : ReachA σ → σ.hand1 = [] → σ.hand2 = [] →
      dealToPlayers σ = some σ' → ReachA σ'
  | play (σ σ' : MState) (p : Player) (c : Card) (cft : List Card) :
      ReachA σ → cft.Nodup → play_card σ p c cft = .ok σ' → ReachA σ'

/-- States reachable under the automated match driver
(`play_random_match` / `play_test_match`): the table is dealt once from
a full shuffled deck, hands are dealt while the deck is non-empty and
both hands are empty, and every play is chosen from `possible_plays`. -/
inductive DriverReach : MState → Prop
  | start (deck : List Card) (σ : MState) : deck.Perm fullDeck →
      dealToTable (initState deck) = some σ → DriverReach σ
  | deal (σ σ' : MState) : DriverReach σ → σ.deck ≠ [] → σ.hand1 = [] →
      σ.hand2 = [] → dealToPlayers σ = some σ' → DriverReach σ'
  | play (σ σ' : MState) (p : Player) (c : Card) (cft : List Card) :
      DriverReach σ → (c, cft) ∈ possible_plays σ p →
      play_card σ p c cft = .ok σ' → DriverReach σ'

/-- One play of the `play_test_match` driver: the first entry of
`possible_plays` (scaffolding used to build a concrete full match). -/
def greedyPlay (σ : MState) (p : Player) : Option MState :=
  match possible_plays σ p with
  | [] => none
  | pl :: _ =>
    match play_card σ p pl.1 pl.2 with
    | .ok σ' => some σ'
    | .error _ => none

/-- One round of six plays, players alternating `P1, P2` three times. -/
def greedyRound (σ : MState) : Option MState := do
  let σ ← greedyPlay σ .P1
  let σ ← greedyPlay σ .P2
  let σ ← greedyPlay σ .P1
  let σ ← greedyPlay σ .P2
  let σ ← greedyPlay σ .P1
  greedyPlay σ .P2

/-- The `while self._deck:` loop of the driver (with explicit fuel):
deal hands, play a round, repeat until the deck is empty. -/
def greedyLoop : Nat → MState → Option MState
  | 0, σ => if σ.deck = [] then some σ else none
  | n + 1, σ =>
    if σ.deck = [] then some σ
    else if σ.hand1 = [] ∧ σ.hand2 = [] then do
      let σ1 ← dealToPlayers σ
      let σ2 ← greedyRound σ1
      greedyLoop n σ2
    else none

/-- A complete deterministic match on the test deck. -/
def greedyRun : Option MState :=
  (dealToTable (initState testDeck)).bind (greedyLoop 7)

/-! ### Basic lemmas about the state accessors -/

lemma hand_setHand_same (σ : MState) (p : Player) (h : List Card) :
    (σ.setHand p h).hand p = h := by
  cases p <;> rfl

lemma hand_setTricks (σ : MState) (p q : Player) (t : List Trick) :
    (σ.setTricks p t).hand q = σ.hand q := by
  cases p <;> cases q <;> rfl

lemma tricksOf_setHand (σ : MState) (p q : Player) (h : List Card) :
    (σ.setHand p h).tricksOf q = σ.tricksOf q := by
  cases p <;> cases q <;> rfl

lemma tricksOf_setTricks_same (σ : MState) (p : Player) (t : List Trick) :
    (σ.setTricks p t).tricksOf p = t := by
  cases p <;> rfl

lemma mem_hand_cases (σ : MState) (p : Player) (c : Card) (h : c ∈ σ.hand p) :
    c ∈ σ.hand1 ∨ c ∈ σ.hand2 := by
  cases p
  · exact Or.inl h
  · exact Or.inr h

/-! ### Characterization of `verify_play` -/

lemma verify_play_eq_true_iff (σ : MState) (p : Player) (c : Card)
    (cft : List Card) : verify_play σ p c cft = true ↔
      c ∈ σ.hand p ∧ (∀ x ∈ cft, x ∈ σ.tabletop) ∧
      (cft ≠ [] → c.value = (cft.map Card.value).sum) ∧
      (1 < cft.length → c.value ∉ σ.tabletop.map Card.value) := by
  unfold verify_play
  split_ifs with h1 h2 h3 h4 <;>
    simp_all [List.any_eq_true, not_or]

lemma verify_play_mem_hand {σ : MState} {p : Player} {c : Card}
    {cft : List Card} (h : verify_play σ p c cft = true) : c ∈ σ.hand p :=
  ((verify_play_eq_true_iff σ p c cft).1 h).1

lemma verify_play_single {σ : MState} {p : Player} {c d : Card}
    (hc : c ∈ σ.hand p) (hd : d ∈ σ.tabletop) (hv : c.value = d.value) :
    verify_play σ p c [d] = true := by
  rw [verify_play_eq_true_iff]
  refine ⟨hc, by simpa using hd, ?_, by simp⟩
  intro _
  simpa using hv

lemma verify_play_false_of_exact_match {σ : MState} {p : Player} {c : Card}
    {cft : List Card} (hm : ∃ t ∈ σ.tabletop, t.value = c.value)
    (hlen : 1 < cft.length) : verify_play σ p c cft = false := by
  rcases hm with ⟨t, ht, hv⟩
  by_contra h
  have h' : verify_play σ p c cft = true := by
    cases hb : verify_play σ p c cft
    · exact absurd hb h
    · rfl
  have := ((verify_play_eq_true_iff σ p c cft).1 h').2.2.2 hlen
  exact this (by exact List.mem_map.2 ⟨t, ht, hv⟩)

/-! ### Lemmas about `removeFirst`, `removeSeq` and `play_card` -/

lemma removeFirst_eq_some {l out : List Card} {c : Card}
    (h : removeFirst l c = some out) : c ∈ l ∧ out = l.erase c := by
  by_cases hm : c ∈ l
  · rw [removeFirst, if_pos hm] at h
    exact ⟨hm, (Option.some_inj.1 h).symm⟩
  · rw [removeFirst, if_neg hm] at h
    cases h

lemma removeFirst_of_mem {l : List Card} {c : Card} (h : c ∈ l) :
    removeFirst l c = some (l.erase c) := by
  rw [removeFirst, if_pos h]

lemma removeFirst_eq_none {l : List Card} {c : Card}
    (h : removeFirst l c = none) : c ∉ l := by
  intro hm
  rw [removeFirst, if_pos hm] at h
  cases h

lemma removeSeq_ok_count {cs : List Card} :
    ∀ {table out : List Card}, removeSeq table cs = .ok out →
      (out : Multiset Card) + (cs : Multiset Card) = (table : Multiset Card) := by
  induction cs with
  | nil =>
    intro table out h
    simp only [removeSeq] at h
    cases h
    simp
  | cons c rest ih =>
    intro table out h
    simp only [removeSeq] at h
    cases hr : removeFirst table c with
    | none => rw [hr] at h; cases h
    | some t =>
      rw [hr] at h
      obtain ⟨hmem, ht⟩ := removeFirst_eq_some hr
      subst ht
      have hout := ih h
      have hcons : (c ::ₘ ((table.erase c : List Card) : Multiset Card))
          = (table : Multiset Card) := by
        rw [← Multiset.coe_erase]
        exact Multiset.cons_erase (by simpa using hmem)
      calc (out : Multiset Card) + ((c :: rest : List Card) : Multiset Card)
          = (out : Multiset Card) + (c ::ₘ (rest : Multiset Card)) := by
            rw [← Multiset.cons_coe]
        _ = c ::ₘ ((out : Multiset Card) + (rest : Multiset Card)) :=
            Multiset.add_cons c _ _
        _ = c ::ₘ ((table.erase c : List Card) : Multiset Card) := by rw [hout]
        _ = (table : Multiset Card) := hcons

/-- Decomposition of a successful placement (`cards_from_table == []`). -/
lemma play_card_nil_ok {σ σ' : MState} {p : Player} {c : Card}
    (h : play_card σ p c [] = .ok σ') :
    c ∈ σ.hand p ∧
      σ' = { σ.setHand p ((σ.hand p).erase c) with
             tabletop := σ.tabletop ++ [c], turnNumber := σ.turnNumber + 1 } := by
  have hh : ({ σ with turnNumber := σ.turnNumber + 1 } : MState).hand p = σ.hand p := by
    cases p <;> rfl
  rw [play_card] at h
  simp only [hh, if_pos rfl, if_true] at h
  cases hr : removeFirst (σ.hand p) c with
  | none => rw [hr] at h; simp at h
  | some hd =>
    rw [hr] at h
    obtain ⟨hmem, hd_eq⟩ := removeFirst_eq_some hr
    subst hd_eq
    simp only [if_true, Except.ok.injEq] at h
    refine ⟨hmem, ?_⟩
    rw [← h]
    cases p <;> rfl

/-- Decomposition of a successful capture (`cards_from_table` non-empty). -/
lemma play_card_capture_ok {σ σ' : MState} {p : Player} {c : Card}
    {cft : List Card} (hne : cft ≠ []) (h : play_card σ p c cft = .ok σ') :
    verify_play σ p c cft = true ∧ c ∈ σ.hand p ∧
      ∃ t, removeSeq σ.tabletop cft = .ok t ∧
        σ' = { (σ.setHand p ((σ.hand p).erase c)).setTricks p
                 (σ.tricksOf p ++
                   [⟨some c, cft, if t ≠ [] ∧ σ.turnNumber + 1 ≠ 36 then 0 else 1⟩]) with
               tabletop := t, lastPlayerToPickup := some p,
               turnNumber := σ.turnNumber + 1 } := by
  have hh : ({ σ with turnNumber := σ.turnNumber + 1 } : MState).hand p = σ.hand p := by
    cases p <;> rfl
  have hv : verify_play { σ with turnNumber := σ.turnNumber + 1 } p c cft
      = verify_play σ p c cft := by
    unfold verify_play
    cases p <;> rfl
  rw [play_card] at h
  rw [if_neg hne] at h
  simp only [hh, hv] at h
  cases hvb : verify_play σ p c cft with
  | false => rw [hvb] at h; simp at h
  | true =>
    rw [hvb] at h
    simp only [if_pos rfl, if_true] at h
    cases hr : removeFirst (σ.hand p) c with
    | none => rw [hr] at h; simp at h
    | some hd =>
      rw [hr] at h
      obtain ⟨hmem, hd_eq⟩ := removeFirst_eq_some hr
      subst hd_eq
      cases hrs : removeSeq σ.tabletop cft with
      | error t =>
        rw [show ({ σ with turnNumber := σ.turnNumber + 1 } : MState).tabletop
            = σ.tabletop from rfl, hrs] at h
        simp at h
      | ok t =>
        rw [show ({ σ with turnNumber := σ.turnNumber + 1 } : MState).tabletop
            = σ.tabletop from rfl, hrs] at h
        simp only [if_true, Except.ok.injEq] at h
        refine ⟨rfl, hmem, t, rfl, ?_⟩
        rw [← h]
        cases p <;> rfl

/-! ### Conservation of cards by the individual operations -/

lemma deal_cards_some {l d r : List Card} {n : Nat}
    (h : deal_cards l n = some (d, r)) :
    (d : Multiset Card) + (r : Multiset Card) = (l : Multiset Card)
      ∧ d.length = n ∧ r.length = l.length - n := by
  unfold deal_cards at h
  split_ifs at h with hn
  · obtain ⟨hd, hr⟩ := Prod.mk.injEq .. ▸ Option.some_inj.1 h
    subst hd; subst hr
    refine ⟨?_, ?_, ?_⟩
    · rw [Multiset.coe_reverse, Multiset.coe_add, Multiset.coe_eq_coe,
        List.take_append_drop]
      exact List.reverse_perm l
    · simp only [List.length_take, List.length_reverse]
      omega
    · simp

lemma cardsOf_dealToTable {σ σ' : MState} (h : dealToTable σ = some σ') :
    cardsOf σ' = cardsOf σ := by
  unfold dealToTable at h
  cases hd : deal_cards σ.deck 4 with
  | none => rw [hd] at h; cases h
  | some x =>
    obtain ⟨d, r⟩ := x
    rw [hd] at h
    dsimp only at h
    obtain ⟨hms, -, -⟩ := deal_cards_some hd
    obtain rfl := Option.some_inj.1 h
    simp only [cardsOf]
    rw [← hms]
    simp only [← Multiset.coe_add]
    abel

lemma cardsOf_dealToPlayers {σ σ' : MState} (hh1 : σ.hand1 = [])
    (hh2 : σ.hand2 = []) (h : dealToPlayers σ = some σ') :
    cardsOf σ' = cardsOf σ := by
  unfold dealToPlayers at h
  cases hd1 : deal_cards σ.deck 3 with
  | none => rw [hd1] at h; cases h
  | some x1 =>
    obtain ⟨h1, d1⟩ := x1
    rw [hd1] at h
    dsimp only at h
    cases hd2 : deal_cards d1 3 with
    | none => rw [hd2] at h; cases h
    | some x2 =>
      obtain ⟨h2, d2⟩ := x2
      rw [hd2] at h
      dsimp only at h
      obtain ⟨hms1, -, -⟩ := deal_cards_some hd1
      obtain ⟨hms2, -, -⟩ := deal_cards_some hd2
      obtain rfl := Option.some_inj.1 h
      simp only [cardsOf, hh1, hh2]
      rw [← hms1, ← hms2]
      simp only [Multiset.coe_nil]
      abel

lemma cardsOf_play_card {σ σ' : MState} {p : Player} {c : Card}
    {cft : List Card} (h : play_card σ p c cft = .ok σ') :
    cardsOf σ' = cardsOf σ := by
  by_cases hne : cft = []
  · subst hne
    obtain ⟨hmem, hst⟩ := play_card_nil_ok h
    subst hst
    have hh : (c ::ₘ ((σ.hand p).erase c : Multiset Card))
        = ((σ.hand p : List Card) : Multiset Card) := by
      rw [← Multiset.coe_erase]
      exact Multiset.cons_erase (by simpa using hmem)
    cases p <;>
      · simp only [cardsOf, MState.setHand, MState.hand] at *
        rw [← hh]
        simp only [← Multiset.coe_add, ← Multiset.singleton_add,
          Multiset.coe_singleton]
        abel
  · obtain ⟨hv, hmem, t, hrs, hst⟩ := play_card_capture_ok hne h
    subst hst
    have hh : (c ::ₘ ((σ.hand p).erase c : Multiset Card))
        = ((σ.hand p : List Card) : Multiset Card) := by
      rw [← Multiset.coe_erase]
      exact Multiset.cons_erase (by simpa using hmem)
    have htab := removeSeq_ok_count hrs
    cases p <;>
      · simp only [cardsOf, MState.setHand, MState.setTricks, MState.tricksOf,
          MState.hand, List.flatMap_append] at *
        rw [← hh, ← htab]
        simp only [allTrickCards, List.flatMap_cons, List.flatMap_nil,
          Option.toList_some, List.append_nil, ← Multiset.coe_add,
          ← Multiset.singleton_add, Multiset.coe_singleton]
        abel

/-! ### Reachability-level conservation -/

lemma reachA_conservation {σ : MState} (h : ReachA σ) :
    cardsOf σ = (fullDeck : Multiset Card) := by
  induction h with
  | init deck hp =>
    simp only [cardsOf, initState, List.flatMap_nil, Multiset.coe_nil]
    simpa using Multiset.coe_eq_coe.2 hp
  | dealTable σ σ' _ hd ih => rw [cardsOf_dealToTable hd]; exact ih
  | dealPlayers σ σ' _ hh1 hh2 hd ih => rw [cardsOf_dealToPlayers hh1 hh2 hd]; exact ih
  | play σ σ' p c cft _ _ hp ih => rw [cardsOf_play_card hp]; exact ih

lemma driver_conservation {σ : MState} (h : DriverReach σ) :
    cardsOf σ = (fullDeck : Multiset Card) := by
  induction h with
  | start deck σ hp hd =>
    rw [cardsOf_dealToTable hd]
    simp only [cardsOf, initState, List.flatMap_nil, Multiset.coe_nil]
    simpa using Multiset.coe_eq_coe.2 hp
  | deal σ σ' _ hne hh1 hh2 hd ih => rw [cardsOf_dealToPlayers hh1 hh2 hd]; exact ih
  | play σ σ' p c cft _ _ hp ih => rw [cardsOf_play_card hp]; exact ih

/-! ### The full deck -/

lemma mem_fullDeck (x : Card) : x ∈ fullDeck ↔ 1 ≤ x.value ∧ x.value ≤ 10 := by
  obtain ⟨xv, xs⟩ := x
  simp only [fullDeck, List.mem_flatMap, List.mem_map, List.mem_range,
    Card.mk.injEq]
  constructor
  · rintro ⟨s, -, v, hv, hveq, -⟩
    omega
  · rintro ⟨h1, h2⟩
    exact ⟨xs, List.mem_finRange xs, xv - 1, by omega, by omega, rfl⟩

/-! ### Lemmas about `combinations` and `powersetList` -/

lemma mem_combinations {α : Type} (l : List α) : ∀ (r : Nat) (s : List α),
    s ∈ combinations r l ↔ s.Sublist l ∧ s.length = r := by
  induction l with
  | nil =>
    intro r s
    cases r with
    | zero => simp [combinations, List.sublist_nil, List.length_eq_zero]
    | succ r =>
      simp only [combinations, List.not_mem_nil, false_iff, not_and,
        List.sublist_nil]
      rintro rfl
      simp
  | cons x xs ih =>
    intro r s
    cases r with
    | zero =>
      simp only [combinations, List.mem_singleton]
      constructor
      · rintro rfl
        exact ⟨List.nil_sublist _, rfl⟩
      · rintro ⟨-, hl⟩
        exact List.length_eq_zero.1 hl
    | succ r =>
      simp only [combinations, List.mem_append, List.mem_map, ih]
      constructor
      · rintro (⟨t, ⟨hsub, hlen⟩, rfl⟩ | ⟨hsub, hlen⟩)
        · exact ⟨hsub.cons₂ x, by simp [hlen]⟩
        · exact ⟨hsub.cons x, hlen⟩
      · rintro ⟨hsub, hlen⟩
        cases hsub with
        | cons _ h => exact Or.inr ⟨h, hlen⟩
        | cons₂ _ h =>
          exact Or.inl ⟨_, ⟨h, by simpa using hlen⟩, rfl⟩

lemma mem_powersetList {α : Type} {l s : List α} :
    s ∈ powersetList l ↔ s.Sublist l := by
  simp only [powersetList, List.mem_flatMap, List.mem_range, mem_combinations]
  constructor
  · rintro ⟨r, -, hs, -⟩
    exact hs
  · intro hs
    exact ⟨s.length, by have := hs.length_le; omega, hs, rfl⟩

lemma powersetList_pairwise {α : Type} (l : List α) :
    (powersetList l).Pairwise fun s t => s.length ≤ t.length := by
  unfold powersetList
  rw [List.flatMap_def, List.pairwise_flatten]
  constructor
  · intro l' hl'
    obtain ⟨r, -, rfl⟩ := List.mem_map.1 hl'
    refine List.pairwise_of_forall_mem_list fun a ha b hb => ?_
    rw [((mem_combinations l r a).1 ha).2, ((mem_combinations l r b).1 hb).2]
  · rw [List.pairwise_map]
    refine (List.pairwise_lt_range _).imp ?_
    intro r1 r2 hlt x hx y hy
    rw [((mem_combinations l r1 x).1 hx).2, ((mem_combinations l r2 y).1 hy).2]
    omega

/-! ### Lemmas about `capture_plays`, `addPlacements`, `possible_plays` -/

lemma mem_capture_plays {σ : MState} {p : Player} {x : Card × List Card} :
    x ∈ capture_plays σ p ↔ x.2.Sublist σ.tabletop ∧ x.1 ∈ σ.hand p
      ∧ x.1.value = (x.2.map Card.value).sum
      ∧ verify_play σ p x.1 x.2 = true := by
  obtain ⟨c, cft⟩ := x
  simp only [capture_plays, List.mem_flatMap, List.mem_map, List.mem_filter,
    mem_powersetList, Bool.and_eq_true, decide_eq_true_eq, Prod.mk.injEq]
  constructor
  · rintro ⟨sub, hsub, c', ⟨hc', hval, hver⟩, rfl, rfl⟩
    exact ⟨hsub, hc', hval, hver⟩
  · rintro ⟨hsub, hc, hval, hver⟩
    exact ⟨cft, hsub, c, ⟨hc, hval, hver⟩, rfl, rfl⟩

lemma capture_plays_pairwise (σ : MState) (p : Player) :
    (capture_plays σ p).Pairwise fun a b => a.2.length ≤ b.2.length := by
  unfold capture_plays
  rw [List.flatMap_def, List.pairwise_flatten]
  constructor
  · intro l' hl'
    obtain ⟨cft, -, rfl⟩ := List.mem_map.1 hl'
    refine List.pairwise_of_forall_mem_list fun a ha b hb => ?_
    obtain ⟨-, -, rfl⟩ : ∃ c, c ∈ σ.hand p ∧ a = (c, cft) := by
      obtain ⟨c, hc, rfl⟩ := List.mem_map.1 ha
      exact ⟨c, (List.mem_filter.1 hc).1, rfl⟩
    obtain ⟨-, -, rfl⟩ : ∃ c, c ∈ σ.hand p ∧ b = (c, cft) := by
      obtain ⟨c, hc, rfl⟩ := List.mem_map.1 hb
      exact ⟨c, (List.mem_filter.1 hc).1, rfl⟩
    exact le_rfl
  · rw [List.pairwise_map]
    refine (powersetList_pairwise σ.tabletop).imp ?_
    intro s t hst x hx y hy
    obtain ⟨cx, -, rfl⟩ := List.mem_map.1 hx
    obtain ⟨cy, -, rfl⟩ := List.mem_map.1 hy
    exact hst

lemma addPlacements_eq_append (hand : List Card) :
    ∀ plays, ∃ tail, addPlacements hand plays = plays ++ tail
      ∧ ∀ x ∈ tail, x.2 = ([] : List Card) ∧ x.1 ∈ hand := by
  induction hand with
  | nil =>
    intro plays
    exact ⟨[], by simp [addPlacements], by simp⟩
  | cons c rest ih =>
    intro plays
    by_cases hm : c ∈ plays.map Prod.fst
    · obtain ⟨tail, ht, hall⟩ := ih plays
      refine ⟨tail, ?_, fun x hx => ⟨(hall x hx).1, List.mem_cons_of_mem c (hall x hx).2⟩⟩
      rw [addPlacements, if_pos hm]
      exact ht
    · obtain ⟨tail, ht, hall⟩ := ih (plays ++ [(c, [])])
      refine ⟨(c, []) :: tail, ?_, ?_⟩
      · rw [addPlacements, if_neg hm, ht, List.append_assoc]
        rfl
      · rintro x hx
        rcases List.mem_cons.1 hx with rfl | hx'
        · exact ⟨rfl, List.mem_cons_self c rest⟩
        · exact ⟨(hall x hx').1, List.mem_cons_of_mem c (hall x hx').2⟩

lemma mem_addPlacements {hand : List Card} {plays : List (Card × List Card)}
    {x : Card × List Card} (h : x ∈ addPlacements hand plays) :
    x ∈ plays ∨ (x.2 = [] ∧ x.1 ∉ plays.map Prod.fst ∧ x.1 ∈ hand) := by
  induction hand generalizing plays with
  | nil => exact Or.inl h
  | cons c rest ih =>
    rw [addPlacements] at h
    split_ifs at h with hm
    · rcases ih h with h' | ⟨h2, h3, h4⟩
      · exact Or.inl h'
      · exact Or.inr ⟨h2, h3, List.mem_cons_of_mem c h4⟩
    · rcases ih h with h' | ⟨h2, h3, h4⟩
      · rcases List.mem_append.1 h' with h'' | h''
        · exact Or.inl h''
        · have hx : x = (c, []) := by simpa using h''
          subst hx
          exact Or.inr ⟨rfl, hm, List.mem_cons_self c rest⟩
      · refine Or.inr ⟨h2, fun hc => h3 ?_, List.mem_cons_of_mem c h4⟩
        rw [List.map_append, List.mem_append]
        exact Or.inl hc

lemma placement_mem_addPlacements {hand : List Card}
    {plays : List (Card × List Card)} {c : Card} (hc : c ∈ hand)
    (hn : c ∉ plays.map Prod.fst) :
    (c, ([] : List Card)) ∈ addPlacements hand plays := by
  induction hand generalizing plays with
  | nil => cases hc
  | cons d rest ih =>
    rcases eq_or_ne c d with rfl | hne
    · rw [addPlacements, if_neg hn]
      obtain ⟨tail, ht, -⟩ := addPlacements_eq_append rest (plays ++ [(c, [])])
      rw [ht, List.append_assoc]
      exact List.mem_append.2 (Or.inr (by simp))
    · have hc' : c ∈ rest := by
        rcases List.mem_cons.1 hc with h | h
        · exact absurd h hne
        · exact h
      rw [addPlacements]
      split_ifs with hm
      · exact ih hc' hn
      · refine ih hc' ?_
        rw [List.map_append, List.mem_append]
        rintro (h | h)
        · exact hn h
        · exact hne (by simpa using h)

lemma addPlacements_count_of_mem {hand : List Card}
    {plays : List (Card × List Card)} {c : Card}
    (hm : c ∈ plays.map Prod.fst) :
    (addPlacements hand plays).count (c, ([] : List Card))
      = plays.count (c, []) := by
  induction hand generalizing plays with
  | nil => rfl
  | cons d rest ih =>
    rw [addPlacements]
    split_ifs with hd
    · exact ih hm
    · have hdc : d ≠ c := fun he => hd (he ▸ hm)
      rw [ih (by rw [List.map_append, List.mem_append]; exact Or.inl hm)]
      rw [List.count_append, List.count_cons, List.count_nil]
      simp [hdc]

lemma addPlacements_count_le_one {hand : List Card}
    {plays : List (Card × List Card)} {c : Card}
    (hn : (c, ([] : List Card)) ∉ plays) :
    (addPlacements hand plays).count (c, ([] : List Card)) ≤ 1 := by
  induction hand generalizing plays with
  | nil =>
    rw [addPlacements, List.count_eq_zero.2 hn]
    omega
  | cons d rest ih =>
    rw [addPlacements]
    split_ifs with hd
    · exact ih hn
    · by_cases hdc : d = c
      · subst hdc
        rw [addPlacements_count_of_mem
          (by rw [List.map_append, List.mem_append]; right; simp)]
        rw [List.count_append, List.count_eq_zero.2 hn, List.count_cons,
          List.count_nil]
        simp
      · refine ih fun hmem => ?_
        rcases List.mem_append.1 hmem with h | h
        · exact hn h
        · have hcd : (c, ([] : List Card)) = (d, []) := by simpa using h
          exact hdc (congrArg Prod.fst hcd).symm

lemma mem_possible_plays_cases {σ : MState} {p : Player} {x : Card × List Card}
    (h : x ∈ possible_plays σ p) :
    x ∈ capture_plays σ p ∨
      (x.2 = [] ∧ x.1 ∉ (capture_plays σ p).map Prod.fst ∧ x.1 ∈ σ.hand p) :=
  mem_addPlacements h

lemma capture_mem_possible_plays {σ : MState} {p : Player}
    {x : Card × List Card} (h : x ∈ capture_plays σ p) :
    x ∈ possible_plays σ p := by
  obtain ⟨tail, ht, -⟩ := addPlacements_eq_append (σ.hand p) (capture_plays σ p)
  rw [possible_plays, ht]
  exact List.mem_append.2 (Or.inl h)

lemma capture_plays_snd_ne_nil {σ : MState} {p : Player} {x : Card × List Card}
    (hval : ∀ c ∈ σ.hand p, 1 ≤ c.value) (h : x ∈ capture_plays σ p) :
    x.2 ≠ [] := by
  obtain ⟨-, hmem, hsum, -⟩ := mem_capture_plays.1 h
  intro hnil
  rw [hnil] at hsum
  have := hval x.1 hmem
  simp at hsum
  omega

lemma placement_mem_iff {σ : MState} {p : Player} {c : Card}
    (hval : ∀ d ∈ σ.hand p, 1 ≤ d.value) :
    (c, ([] : List Card)) ∈ possible_plays σ p ↔
      c ∈ σ.hand p ∧ c ∉ (capture_plays σ p).map Prod.fst := by
  constructor
  · intro h
    rcases mem_possible_plays_cases h with h' | ⟨-, h2, h3⟩
    · exact absurd rfl (capture_plays_snd_ne_nil hval h')
    · exact ⟨h3, h2⟩
  · rintro ⟨h1, h2⟩
    exact placement_mem_addPlacements h1 h2

lemma capture_fst_of_exact {σ : MState} {p : Player} {c d : Card}
    (hc : c ∈ σ.hand p) (hd : d ∈ σ.tabletop) (hv : c.value = d.value) :
    c ∈ (capture_plays σ p).map Prod.fst := by
  refine List.mem_map.2 ⟨(c, [d]), ?_, rfl⟩
  rw [mem_capture_plays]
  exact ⟨List.singleton_sublist.2 hd, hc, by simpa using hv,
    verify_play_single hc hd hv⟩

lemma possible_plays_count_le_one {σ : MState} {p : Player} {c : Card}
    (hval : ∀ d ∈ σ.hand p, 1 ≤ d.value) :
    (possible_plays σ p).count (c, ([] : List Card)) ≤ 1 := by
  apply addPlacements_count_le_one
  intro h
  exact capture_plays_snd_ne_nil hval h rfl

/-! ### Claim-side scoring quantities (stated from the spec wording) -/

/-- All cards recorded in a trick pile. -/
def allPileCards (pile : List Trick) : List Card :=
  pile.flatMap allTrickCards

def specScopas (pile : List Trick) : Nat :=
  (pile.map Trick.scopa).sum

def specCards (pile : List Trick) : Nat :=
  (allPileCards pile).length

def specDenari (pile : List Trick) : Nat :=
  (allPileCards pile).countP fun c => c.suit = SETTEBELLO_SUIT

def specSettebello (pile : List Trick) : Nat :=
  if SETTEBELLO ∈ allPileCards pile then 1 else 0

/-- The primiera point table exactly as the claim lists it:
1→16, 2→12, 3→13, 4→14, 5→15, 6→18, 7→21, 8→10, 9→10, 10→10, else 0. -/
def specPoints : Nat → Nat
  | 1 => 16
  | 2 => 12
  | 3 => 13
  | 4 => 14
  | 5 => 15
  | 6 => 18
  | 7 => 21
  | 8 => 10
  | 9 => 10
  | 10 => 10
  | _ => 0

lemma primiera_points_eq_spec (v : Nat) : PRIMIERA_POINTS v = specPoints v := by
  match v with
  | 0 => rfl
  | 1 => rfl
  | 2 => rfl
  | 3 => rfl
  | 4 => rfl
  | 5 => rfl
  | 6 => rfl
  | 7 => rfl
  | 8 => rfl
  | 9 => rfl
  | 10 => rfl
  | n + 11 => rfl

/-- Maximum primiera point value among a pile's cards of suit `s`
(0 when the suit is unrepresented). -/
def suitMax (pile : List Trick) (s : Fin 4) : Nat :=
  (((allPileCards pile).filter fun c => c.suit = s).map
    fun c => specPoints c.value).foldl max 0

/-- The summed primiera score as the claim describes it. -/
def specPrimiera (pile : List Trick) : Nat :=
  ((List.finRange 4).map (suitMax pile)).sum

/-! ### Field-level behaviour of the tally fold -/

lemma tallyCard_numScopas (acc : TallyAcc) (card : Card) :
    (tallyCard acc card).numScopas = acc.numScopas := by
  simp only [tallyCard]
  split_ifs <;> rfl

lemma tallyCard_numCards (acc : TallyAcc) (card : Card) :
    (tallyCard acc card).numCards = acc.numCards + 1 := by
  simp only [tallyCard]
  split_ifs <;> rfl

lemma tallyCard_numDenari (acc : TallyAcc) (card : Card) :
    (tallyCard acc card).numDenari
      = acc.numDenari + (if card.suit = SETTEBELLO_SUIT then 1 else 0) := by
  simp only [tallyCard]
  split_ifs <;> rfl

lemma tallyCard_settebello (acc : TallyAcc) (card : Card) :
    (tallyCard acc card).settebello
      = if card = SETTEBELLO then 1 else acc.settebello := by
  simp only [tallyCard]
  split_ifs <;> rfl

lemma tallyCard_primieraScore (acc : TallyAcc) (card : Card) (s : Fin 4) :
    (tallyCard acc card).primieraScore s
      = if card.suit = s then
          max (acc.primieraScore s) (PRIMIERA_POINTS card.value)
        else acc.primieraScore s := by
  by_cases hs : card.suit = s
  · subst hs
    simp only [tallyCard, if_pos rfl]
    split_ifs <;>
      simp_all only [Function.update_same, Nat.max_def] <;>
      (try split_ifs) <;> omega
  · simp only [tallyCard, if_neg hs]
    split_ifs <;>
      simp only [Function.update_noteq fun h => hs h.symm]

/-! ### The tally fold over card lists and trick lists -/

lemma foldl_tallyCard_numScopas (cs : List Card) :
    ∀ acc : TallyAcc, (cs.foldl tallyCard acc).numScopas = acc.numScopas := by
  induction cs with
  | nil => intro acc; rfl
  | cons c rest ih =>
    intro acc
    rw [List.foldl_cons, ih, tallyCard_numScopas]

lemma foldl_tallyCard_numCards (cs : List Card) :
    ∀ acc : TallyAcc,
      (cs.foldl tallyCard acc).numCards = acc.numCards + cs.length := by
  induction cs with
  | nil => intro acc; rfl
  | cons c rest ih =>
    intro acc
    rw [List.foldl_cons, ih, tallyCard_numCards, List.length_cons]
    omega

lemma foldl_tallyCard_numDenari (cs : List Card) :
    ∀ acc : TallyAcc, (cs.foldl tallyCard acc).numDenari
      = acc.numDenari + cs.countP fun c => c.suit = SETTEBELLO_SUIT := by
  induction cs with
  | nil => intro acc; rfl
  | cons c rest ih =>
    intro acc
    rw [List.foldl_cons, ih, tallyCard_numDenari, List.countP_cons]
    simp only [decide_eq_true_eq]
    split_ifs <;> omega

lemma foldl_tallyCard_settebello (cs : List Card) :
    ∀ acc : TallyAcc, (cs.foldl tallyCard acc).settebello
      = if SETTEBELLO ∈ cs then 1 else acc.settebello := by
  induction cs with
  | nil => intro acc; simp
  | cons c rest ih =>
    intro acc
    rw [List.foldl_cons, ih, tallyCard_settebello]
    rcases eq_or_ne c SETTEBELLO with rfl | hne
    · simp only [List.mem_cons, true_or, if_pos rfl, if_true]
      split_ifs <;> rfl
    · simp [List.mem_cons, hne, Ne.symm hne]

lemma foldl_tallyCard_primieraScore (cs : List Card) :
    ∀ (acc : TallyAcc) (s : Fin 4), (cs.foldl tallyCard acc).primieraScore s
      = ((cs.filter fun c => c.suit = s).map
          fun c => PRIMIERA_POINTS c.value).foldl max (acc.primieraScore s) := by
  induction cs with
  | nil => intro acc s; rfl
  | cons c rest ih =>
    intro acc s
    rw [List.foldl_cons, ih, tallyCard_primieraScore, List.filter_cons]
    rcases eq_or_ne c.suit s with hs | hs <;> simp [hs]

lemma foldl_tallyTrick_numScopas (pile : List Trick) :
    ∀ acc : TallyAcc,
      (pile.foldl tallyTrick acc).numScopas = acc.numScopas + specScopas pile := by
  induction pile with
  | nil => intro acc; simp [specScopas]
  | cons t rest ih =>
    intro acc
    rw [List.foldl_cons, ih]
    unfold tallyTrick
    rw [foldl_tallyCard_numScopas]
    simp only [specScopas, List.map_cons, List.sum_cons]
    omega

lemma foldl_tallyTrick_numCards (pile : List Trick) :
    ∀ acc : TallyAcc, (pile.foldl tallyTrick acc).numCards
      = acc.numCards + (pile.flatMap allTrickCards).length := by
  induction pile with
  | nil => intro acc; simp
  | cons t rest ih =>
    intro acc
    rw [List.foldl_cons, ih]
    unfold tallyTrick
    rw [foldl_tallyCard_numCards]
    simp only [List.flatMap_cons, List.length_append]
    omega

lemma foldl_tallyTrick_numDenari (pile : List Trick) :
    ∀ acc : TallyAcc, (pile.foldl tallyTrick acc).numDenari
      = acc.numDenari + (pile.flatMap allTrickCards).countP
          fun c => c.suit = SETTEBELLO_SUIT := by
  induction pile with
  | nil => intro acc; simp
  | cons t rest ih =>
    intro acc
    rw [List.foldl_cons, ih]
    unfold tallyTrick
    rw [foldl_tallyCard_numDenari]
    simp only [List.flatMap_cons, List.countP_append]
    omega

lemma foldl_tallyTrick_settebello (pile : List Trick) :
    ∀ acc : TallyAcc, (pile.foldl tallyTrick acc).settebello
      = if SETTEBELLO ∈ pile.flatMap allTrickCards then 1
        else acc.settebello := by
  induction pile with
  | nil => intro acc; simp
  | cons t rest ih =>
    intro acc
    rw [List.foldl_cons, ih]
    unfold tallyTrick
    rw [foldl_tallyCard_settebello]
    simp only [List.flatMap_cons, List.mem_append]
    by_cases h1 : SETTEBELLO ∈ rest.flatMap allTrickCards
    · simp [h1]
    · by_cases h2 : SETTEBELLO ∈ allTrickCards t <;> simp [h1, h2]

lemma foldl_max_append (l1 l2 : List Nat) (b : Nat) :
    (l1 ++ l2).foldl max b = (l2.foldl max (l1.foldl max b)) := by
  rw [List.foldl_append]

lemma foldl_tallyTrick_primieraScore (pile : List Trick) :
    ∀ (acc : TallyAcc) (s : Fin 4), (pile.foldl tallyTrick acc).primieraScore s
      = (((pile.flatMap allTrickCards).filter fun c => c.suit = s).map
          fun c => PRIMIERA_POINTS c.value).foldl max (acc.primieraScore s) := by
  induction pile with
  | nil => intro acc s; rfl
  | cons t rest ih =>
    intro acc s
    rw [List.foldl_cons, ih]
    unfold tallyTrick
    rw [foldl_tallyCard_primieraScore]
    simp only [List.flatMap_cons, List.filter_append, List.map_append,
      List.foldl_append]

/-! ### `tallyPile` in terms of the claim-side quantities -/

lemma tallyPile_numScopas (pile : List Trick) :
    (tallyPile pile).numScopas = specScopas pile := by
  unfold tallyPile
  rw [foldl_tallyTrick_numScopas]
  simp [tallyInit]

lemma tallyPile_numCards (pile : List Trick) :
    (tallyPile pile).numCards = specCards pile := by
  unfold tallyPile
  rw [foldl_tallyTrick_numCards]
  simp [tallyInit, specCards, allPileCards]

lemma tallyPile_numDenari (pile : List Trick) :
    (tallyPile pile).numDenari = specDenari pile := by
  unfold tallyPile
  rw [foldl_tallyTrick_numDenari]
  simp [tallyInit, specDenari, allPileCards]

lemma tallyPile_settebello (pile : List Trick) :
    (tallyPile pile).settebello = specSettebello pile := by
  unfold tallyPile specSettebello
  rw [foldl_tallyTrick_settebello]
  rfl

lemma tallyPile_primieraScore (pile : List Trick) (s : Fin 4) :
    (tallyPile pile).primieraScore s = suitMax pile s := by
  unfold tallyPile suitMax
  rw [foldl_tallyTrick_primieraScore]
  unfold allPileCards
  have hm : ((pile.flatMap allTrickCards).filter fun c => c.suit = s).map
        (fun c => PRIMIERA_POINTS c.value)
      = ((pile.flatMap allTrickCards).filter fun c => c.suit = s).map
        (fun c => specPoints c.value) :=
    List.map_congr_left fun c _ => primiera_points_eq_spec c.value
  rw [hm]
  rfl

lemma primieraSum_tallyPile (pile : List Trick) :
    primieraSum (tallyPile pile) = specPrimiera pile := by
  unfold primieraSum specPrimiera
  congr 1
  exact List.map_congr_left fun s _ => tallyPile_primieraScore pile s

/-! ### Field bookkeeping of the dealing operations -/

lemma dealToTable_fields {σ σ' : MState} (h : dealToTable σ = some σ') :
    σ'.hand1 = σ.hand1 ∧ σ'.hand2 = σ.hand2 ∧ σ'.tricks1 = σ.tricks1
      ∧ σ'.tricks2 = σ.tricks2
      ∧ σ'.lastPlayerToPickup = σ.lastPlayerToPickup
      ∧ σ'.deck.length = σ.deck.length - 4 := by
  unfold dealToTable at h
  cases hd : deal_cards σ.deck 4 with
  | none => rw [hd] at h; cases h
  | some x =>
    obtain ⟨d, r⟩ := x
    rw [hd] at h
    dsimp only at h
    obtain ⟨-, -, hlen⟩ := deal_cards_some hd
    obtain rfl := Option.some_inj.1 h
    exact ⟨rfl, rfl, rfl, rfl, rfl, hlen⟩

lemma dealToPlayers_fields {σ σ' : MState} (h : dealToPlayers σ = some σ') :
    σ'.tabletop = σ.tabletop ∧ σ'.tricks1 = σ.tricks1 ∧ σ'.tricks2 = σ.tricks2
      ∧ σ'.lastPlayerToPickup = σ.lastPlayerToPickup
      ∧ σ'.hand1.length = 3 ∧ σ'.hand2.length = 3 := by
  unfold dealToPlayers at h
  cases hd1 : deal_cards σ.deck 3 with
  | none => rw [hd1] at h; cases h
  | some x1 =>
    obtain ⟨h1, d1⟩ := x1
    rw [hd1] at h
    dsimp only at h
    cases hd2 : deal_cards d1 3 with
    | none => rw [hd2] at h; cases h
    | some x2 =>
      obtain ⟨h2, d2⟩ := x2
      rw [hd2] at h
      dsimp only at h
      obtain ⟨-, hl1, -⟩ := deal_cards_some hd1
      obtain ⟨-, hl2, -⟩ := deal_cards_some hd2
      obtain rfl := Option.some_inj.1 h
      exact ⟨rfl, rfl, rfl, rfl, hl1, hl2⟩

/-! ### Tricks and the last-to-capture marker along driver play -/

lemma driver_last_none_tricks {σ : MState} (h : DriverReach σ)
    (hl : σ.lastPlayerToPickup = none) :
    σ.tricks1 = [] ∧ σ.tricks2 = [] := by
  induction h with
  | start deck σ0 hp hd =>
    obtain ⟨-, -, ht1, ht2, -, -⟩ := dealToTable_fields hd
    exact ⟨ht1, ht2⟩
  | deal σ σ' hr hne hh1 hh2 hd ih =>
    obtain ⟨-, ht1, ht2, hlp, -, -⟩ := dealToPlayers_fields hd
    obtain ⟨i1, i2⟩ := ih (hlp ▸ hl)
    exact ⟨ht1.trans i1, ht2.trans i2⟩
  | play σ σ' p c cft hr hmem hp ih =>
    by_cases hne : cft = []
    · subst hne
      obtain ⟨-, hst⟩ := play_card_nil_ok hp
      subst hst
      cases p with
      | P1 =>
        obtain ⟨i1, i2⟩ := ih hl
        exact ⟨i1, i2⟩
      | P2 =>
        obtain ⟨i1, i2⟩ := ih hl
        exact ⟨i1, i2⟩
    · obtain ⟨-, -, t, -, hst⟩ := play_card_capture_ok hne hp
      subst hst
      cases p <;> cases hl

lemma eq_singleton_of_erase_nil {l : List Card} {c : Card} (hm : c ∈ l)
    (he : l.erase c = []) : l = [c] := by
  cases l with
  | nil => cases hm
  | cons a t =>
    rw [List.erase_cons] at he
    split_ifs at he with hac
    obtain rfl : a = c := by simpa using hac
    rw [he]

lemma fin4_succ_ne (s : Fin 4) : ¬(s + 1 = s) := by
  fin_cases s <;> decide

/-- In a state whose deck is exhausted, whose trick piles are empty and
whose hands hold the single card `c`, a placement of `c` cannot be among
`possible_plays`: the other three cards of value `c.value` are on the
tabletop, so `c` has a single-card capture. -/
lemma forced_capture {σ : MState} {p : Player} {c : Card}
    (hcons : cardsOf σ = (fullDeck : Multiset Card))
    (hmem : (c, ([] : List Card)) ∈ possible_plays σ p)
    (hchand : σ.hand p = [c]) (hdeck : σ.deck = [])
    (hsum : ((σ.hand1 : List Card) : Multiset Card)
      + ((σ.hand2 : List Card) : Multiset Card) = {c})
    (ht1 : σ.tricks1 = []) (ht2 : σ.tricks2 = []) : False := by
  have hsplit : cardsOf σ = (σ.tabletop : Multiset Card)
      + (((σ.hand1 : List Card) : Multiset Card)
        + ((σ.hand2 : List Card) : Multiset Card)) := by
    simp only [cardsOf, hdeck, ht1, ht2, List.flatMap_nil, Multiset.coe_nil]
    abel
  have htab : c ::ₘ (σ.tabletop : Multiset Card) = (fullDeck : Multiset Card) := by
    rw [← hcons, hsplit, hsum, ← Multiset.singleton_add, add_comm]
  have hcf : c ∈ fullDeck := by
    have hx : c ∈ (fullDeck : Multiset Card) := htab ▸ Multiset.mem_cons_self c _
    simpa using hx
  obtain ⟨hc1, hc10⟩ := (mem_fullDeck c).1 hcf
  have hdf : (⟨c.value, c.suit + 1⟩ : Card) ∈ fullDeck :=
    (mem_fullDeck ⟨c.value, c.suit + 1⟩).2 ⟨hc1, hc10⟩
  have hdc : (⟨c.value, c.suit + 1⟩ : Card) ≠ c := by
    intro he
    exact fin4_succ_ne c.suit (congrArg Card.suit he)
  have hdt : (⟨c.value, c.suit + 1⟩ : Card) ∈ σ.tabletop := by
    have hmem2 : (⟨c.value, c.suit + 1⟩ : Card) ∈ c ::ₘ (σ.tabletop : Multiset Card) := by
      rw [htab]
      simpa using hdf
    rcases Multiset.mem_cons.1 hmem2 with he | ht
    · exact absurd he hdc
    · simpa using ht
  have hval : ∀ x ∈ σ.hand p, 1 ≤ x.value := by
    intro x hx
    rw [hchand] at hx
    obtain rfl : x = c := by simpa using hx
    exact hc1
  have hnc := ((placement_mem_iff hval).1 hmem).2
  exact hnc (capture_fst_of_exact (by rw [hchand]; exact List.mem_cons_self c [])
    hdt rfl)

/-- No complete all-placement match exists: a driver-reachable state can
never have an exhausted deck, empty hands and empty trick piles at the
same time (the last card played would have had a forced capture). -/
lemma driver_not_all_placements {σ : MState} (h : DriverReach σ)
    (hdeck : σ.deck = []) (hh1 : σ.hand1 = []) (hh2 : σ.hand2 = [])
    (ht1 : σ.tricks1 = []) (ht2 : σ.tricks2 = []) : False := by
  induction h with
  | start deck σ0 hp hd =>
    obtain ⟨-, -, -, -, -, hlen⟩ := dealToTable_fields hd
    rw [hdeck] at hlen
    have h40 : deck.length = 40 := by rw [hp.length_eq]; rfl
    simp [initState, h40] at hlen
  | deal σ σ' hr hne hb1 hb2 hd ih =>
    obtain ⟨-, -, -, -, hl1, -⟩ := dealToPlayers_fields hd
    rw [hh1] at hl1
    simp at hl1
  | play σ σ' p c cft hr hmem hp ih =>
    by_cases hne : cft = []
    · subst hne
      obtain ⟨hcm, hst⟩ := play_card_nil_ok hp
      subst hst
      have hcons := driver_conservation hr
      cases p with
      | P1 =>
        simp only [MState.setHand, MState.hand] at hcm hdeck hh1 hh2 ht1 ht2
        have hhand : σ.hand1 = [c] := eq_singleton_of_erase_nil hcm hh1
        refine forced_capture hcons hmem hhand hdeck ?_ ht1 ht2
        rw [hhand, hh2]
        simp
      | P2 =>
        simp only [MState.setHand, MState.hand] at hcm hdeck hh1 hh2 ht1 ht2
        have hhand : σ.hand2 = [c] := eq_singleton_of_erase_nil hcm hh2
        refine forced_capture hcons hmem hhand hdeck ?_ ht1 ht2
        rw [hhand, hh1]
        simp
    · obtain ⟨-, -, t, -, hst⟩ := play_card_capture_ok hne hp
      subst hst
      cases p with
      | P1 => simp [MState.setHand, MState.setTricks] at ht1
      | P2 => simp [MState.setHand, MState.setTricks] at ht2

/-! ### The deterministic greedy run is driver-reachable -/

lemma greedyPlay_reach {σ σ' : MState} {p : Player} (hr : DriverReach σ)
    (h : greedyPlay σ p = some σ') : DriverReach σ' := by
  unfold greedyPlay at h
  cases hpp : possible_plays σ p with
  | nil => rw [hpp] at h; cases h
  | cons pl rest =>
    obtain ⟨c, cft⟩ := pl
    rw [hpp] at h
    dsimp only at h
    cases hpc : play_card σ p c cft with
    | error e => rw [hpc] at h; cases h
    | ok s =>
      rw [hpc] at h
      dsimp only at h
      obtain rfl := Option.some_inj.1 h
      exact DriverReach.play σ s p c cft hr
        (hpp ▸ List.mem_cons_self (c, cft) rest) hpc

lemma greedyRound_reach {σ σ' : MState} (hr : DriverReach σ)
    (h : greedyRound σ = some σ') : DriverReach σ' := by
  unfold greedyRound at h
  simp only [bind, Option.bind_eq_some] at h
  obtain ⟨s1, h1, s2, h2, s3, h3, s4, h4, s5, h5, h6⟩ := h
  exact greedyPlay_reach (greedyPlay_reach (greedyPlay_reach
    (greedyPlay_reach (greedyPlay_reach (greedyPlay_reach hr h1) h2) h3)
      h4) h5) h6

lemma greedyLoop_reach (n : Nat) : ∀ {σ σ' : MState}, DriverReach σ →
    greedyLoop n σ = some σ' → DriverReach σ' := by
  induction n with
  | zero =>
    intro σ σ' hr h
    unfold greedyLoop at h
    split_ifs at h
    obtain rfl := Option.some_inj.1 h
    exact hr
  | succ n ih =>
    intro σ σ' hr h
    unfold greedyLoop at h
    split_ifs at h with hd hh
    · obtain rfl := Option.some_inj.1 h
      exact hr
    · simp only [bind, Option.bind_eq_some] at h
      obtain ⟨s1, h1, s2, h2, h3⟩ := h
      exact ih (greedyRound_reach (DriverReach.deal σ s1 hr hd hh.1 hh.2 h1) h2) h3

lemma greedyLoop_deck (n : Nat) : ∀ {σ σ' : MState},
    greedyLoop n σ = some σ' → σ'.deck = [] := by
  induction n with
  | zero =>
    intro σ σ' h
    unfold greedyLoop at h
    split_ifs at h with hd
    obtain rfl := Option.some_inj.1 h
    exact hd
  | succ n ih =>
    intro σ σ' h
    unfold greedyLoop at h
    split_ifs at h with hd hh
    · obtain rfl := Option.some_inj.1 h
      exact hd
    · simp only [bind, Option.bind_eq_some] at h
      obtain ⟨s1, -, s2, -, h3⟩ := h
      exact ih h3

/-- The final state of the deterministic test-deck match. -/
def greedyFinal : MState :=
  greedyRun.getD (initState [])

lemma option_eq_some_getD {α : Type} (o : Option α) (d : α)
    (h : o.isSome = true) : o = some (o.getD d) := by
  cases o with
  | none => cases h
  | some a => rfl

/-! ### The compact card text form -/

/-- The characters of the ASCII range that Python treats as whitespace
(stripped by `int()` around the numeric literal). -/
def pyWhitespace (c : Char) : Bool :=
  c == ' ' || c == '\t' || c == '\n' || c == '\x0b' || c == '\x0c'
    || c == '\r' || c == '\x1c' || c == '\x1d' || c == '\x1e' || c == '\x1f'

/-- Strip leading and trailing Python whitespace, as `int()` does. -/
def stripPyWS (cs : List Char) : List Char :=
  ((cs.dropWhile pyWhitespace).reverse.dropWhile pyWhitespace).reverse

/-- Continuation of a digit group after its first digit: further ASCII
digits, a single underscore permitted between two digits (Python 3
underscore grouping; `1__0`, `1_` and `_1` are rejected). -/
def digitsRest (n : Nat) : List Char → Option Nat
  | [] => some n
  | '_' :: c :: rest =>
    if c.isDigit then digitsRest (n * 10 + (c.toNat - 48)) rest else none
  | c :: rest =>
    if c.isDigit then digitsRest (n * 10 + (c.toNat - 48)) rest else none

/-- A nonempty ASCII digit string with underscore grouping, as a number. -/
def digitsToNat (cs : List Char) : Option Nat :=
  match cs with
  | [] => none
  | c :: rest => if c.isDigit then digitsRest (c.toNat - 48) rest else none

/-- Python `int(string)` on ASCII input: surrounding whitespace is
stripped, then an optional single sign, then ASCII digits with single
underscores permitted between digits.  Non-ASCII numerals and
whitespace (which `int` also accepts) lie outside the modelled domain;
every token below is ASCII. -/
def pythonInt (cs : List Char) : Option Int :=
  match stripPyWS cs with
  | '-' :: rest => (digitsToNat rest).map fun n => -(n : Int)
  | '+' :: rest => (digitsToNat rest).map fun n => (n : Int)
  | cs2 => (digitsToNat cs2).map fun n => (n : Int)

/-- `Deck.card_from_str`: `value = int(data[:-1])` then
`suit = SUIT_SHORTNAMES.index(data[-1])`, returning the raw
`(value, suit)` pair with no range check on the value.  A failing
`int` (`ValueError`) or `.index` (`ValueError`) is `none`; the value is
parsed first, as in the source. -/
def card_from_str (cs : List Char) : Option (Int × Nat) :=
  match pythonInt cs.dropLast with
  | none => none
  | some v =>
    match cs.getLast? with
    | none => none
    | some ch =>
      match SUIT_SHORTNAMES.indexOf? ch with
      | none => none
      | some s => some (v, s)

/-! ### Legality, the play result, and an exhaustive case analysis -/

/-- A play that `play_card` will commit: either `verify_play` accepts
it, or it is an empty-capture placement of a card actually in hand. -/
def legalPlay (σ : MState) (p : Player) (c : Card) (cft : List Card) : Prop :=
  verify_play σ p c cft = true ∨ (cft = [] ∧ c ∈ σ.hand p)

instance (σ : MState) (p : Player) (c : Card) (cft : List Card) :
    Decidable (legalPlay σ p c cft) := by
  unfold legalPlay
  infer_instance

/-- The state of the `Match` object after a `play_card` call, whether
it returned normally or raised. -/
def resState : Except MState MState → MState
  | .ok s => s
  | .error s => s

lemma hand_bump (σ : MState) (p : Player) :
    ({ σ with turnNumber := σ.turnNumber + 1 } : MState).hand p = σ.hand p := by
  cases p <;> rfl

lemma verify_play_bump (σ : MState) (p : Player) (c : Card) (cft : List Card) :
    verify_play { σ with turnNumber := σ.turnNumber + 1 } p c cft
      = verify_play σ p c cft := by
  unfold verify_play
  cases p <;> rfl

lemma erase_ne_self {l : List Card} {c : Card} (h : c ∈ l) : l.erase c ≠ l := by
  intro he
  have hlen := List.length_erase_of_mem h
  rw [he] at hlen
  have hp : 0 < l.length := List.length_pos.2 (by rintro rfl; cases h)
  omega

/-- Exhaustive behaviour of `play_card` by legality case. -/
lemma play_card_cases (σ : MState) (p : Player) (c : Card) (cft : List Card) :
    (cft = [] ∧ c ∉ σ.hand p ∧ play_card σ p c cft
        = .error { σ with turnNumber := σ.turnNumber + 1 })
    ∨ (cft = [] ∧ c ∈ σ.hand p ∧ play_card σ p c cft
        = .ok { σ.setHand p ((σ.hand p).erase c) with
                tabletop := σ.tabletop ++ [c], turnNumber := σ.turnNumber + 1 })
    ∨ (cft ≠ [] ∧ verify_play σ p c cft = false ∧ play_card σ p c cft
        = .error { σ with turnNumber := σ.turnNumber + 1 })
    ∨ (cft ≠ [] ∧ verify_play σ p c cft = true ∧ c ∈ σ.hand p ∧
        ((∃ t, removeSeq σ.tabletop cft = .error t ∧ play_card σ p c cft
            = .error { σ.setHand p ((σ.hand p).erase c) with
                       tabletop := t, turnNumber := σ.turnNumber + 1 })
         ∨ ∃ t, removeSeq σ.tabletop cft = .ok t ∧ play_card σ p c cft
            = .ok { (σ.setHand p ((σ.hand p).erase c)).setTricks p
                      (σ.tricksOf p ++ [⟨some c, cft,
                        if t ≠ [] ∧ σ.turnNumber + 1 ≠ 36 then 0 else 1⟩]) with
                    tabletop := t, lastPlayerToPickup := some p,
                    turnNumber := σ.turnNumber + 1 })) := by
  by_cases hne : cft = []
  · subst hne
    by_cases hmem : c ∈ σ.hand p
    · refine Or.inr (Or.inl ⟨rfl, hmem, ?_⟩)
      simp only [play_card, if_pos rfl, hand_bump, removeFirst_of_mem hmem]
      cases p <;> rfl
    · refine Or.inl ⟨rfl, hmem, ?_⟩
      simp only [play_card, if_pos rfl, hand_bump]
      rw [show removeFirst (σ.hand p) c = none from by rw [removeFirst, if_neg hmem]]
      rfl
  · cases hv : verify_play σ p c cft with
    | false =>
      refine Or.inr (Or.inr (Or.inl ⟨hne, rfl, ?_⟩))
      simp only [play_card, if_neg hne, verify_play_bump, hv]
      rfl
    | true =>
      have hmem := verify_play_mem_hand hv
      refine Or.inr (Or.inr (Or.inr ⟨hne, rfl, hmem, ?_⟩))
      cases hrs : removeSeq σ.tabletop cft with
      | error t =>
        refine Or.inl ⟨t, rfl, ?_⟩
        simp only [play_card, if_neg hne, verify_play_bump, hv, if_pos rfl,
          hand_bump, removeFirst_of_mem hmem, if_true]
        rw [show ({ σ with turnNumber := σ.turnNumber + 1 } : MState).tabletop
          = σ.tabletop from rfl, hrs]
        cases p <;> rfl
      | ok t =>
        refine Or.inr ⟨t, rfl, ?_⟩
        simp only [play_card, if_neg hne, verify_play_bump, hv, if_pos rfl,
          hand_bump, removeFirst_of_mem hmem, if_true]
        rw [show ({ σ with turnNumber := σ.turnNumber + 1 } : MState).tabletop
          = σ.tabletop from rfl, hrs]
        cases p <;> rfl

/-- The per-player match-point computation exactly as the claim words
it: one point per scopa, the three strict-majority/holder points, and
the strict primiera comparison. -/
def specAward (mine other : List Trick) : Nat :=
  specScopas mine + (if 20 < specCards mine then 1 else 0)
    + (if 5 < specDenari mine then 1 else 0) + specSettebello mine
    + (if specPrimiera other < specPrimiera mine then 1 else 0)

/-- `Match.tally_tricks` for one player: the stored 6-tuple
`(num_scopas, num_cards, num_denari, settebello, sum(primiera_score),
primiera_cards)`. -/
def tally_tricks (pile : List Trick) : Nat × Nat × Nat × Nat × Nat × (Fin 4 → Card) :=
  (((tallyPile pile).numScopas, (tallyPile pile).numCards,
    (tallyPile pile).numDenari, (tallyPile pile).settebello,
    primieraSum (tallyPile pile), (tallyPile pile).primieraCards))

/-! ### The claims -/

/-- C1: the claim states that the scopa flag of a committed capture is 1
iff the tabletop is empty right after the capture AND the play is not
turn 36.  The code computes `0 if tabletop and turn != 36 else 1`, which
awards `scopa = 1` for EVERY capture on turn 36, even one that leaves
cards on the table.  This theorem evaluates `play_card` at such a
failing input: at turn 36 a capture of 2C by 2D leaves 5C on the table,
yet the recorded trick carries `scopa = 1` where the claim requires 0. -/
theorem c1_scopa_turn36_bug :
    play_card
      { deck := [], tabletop := [⟨2,1⟩, ⟨5,1⟩], hand1 := [⟨2,2⟩], hand2 := [],
        tricks1 := [], tricks2 := [], lastPlayerToPickup := none,
        turnNumber := 35 }
      Player.P1 ⟨2,2⟩ [⟨2,1⟩]
    = .ok { deck := [], tabletop := [⟨5,1⟩], hand1 := [], hand2 := [],
            tricks1 := [⟨some ⟨2,2⟩, [⟨2,1⟩], 1⟩], tricks2 := [],
            lastPlayerToPickup := some Player.P1, turnNumber := 36 } := by
  rfl

/-- C2 (amended): a `play_card` call always increments the turn counter,
including rejected calls; apart from that counter, an illegal play
raises and leaves every state component unchanged, while a legal play
mutates the state (the played card leaves the acting player's hand). -/
theorem c2_verify_commit (σ : MState) (p : Player) (c : Card)
    (cft : List Card) :
    (¬ legalPlay σ p c cft →
      play_card σ p c cft = .error { σ with turnNumber := σ.turnNumber + 1 })
    ∧ (legalPlay σ p c cft →
      (resState (play_card σ p c cft)).hand p = (σ.hand p).erase c
        ∧ (σ.hand p).erase c ≠ σ.hand p)
    ∧ (resState (play_card σ p c cft)).turnNumber = σ.turnNumber + 1 := by
  rcases play_card_cases σ p c cft with
    ⟨hnil, hmem, heq⟩ | ⟨hnil, hmem, heq⟩ | ⟨hne, hv, heq⟩ |
      ⟨hne, hv, hmem, ⟨t, hrs, heq⟩ | ⟨t, hrs, heq⟩⟩
  · refine ⟨fun _ => heq, fun hl => ?_, by rw [heq]; rfl⟩
    rcases hl with hv | ⟨-, hm⟩
    · exact absurd (verify_play_mem_hand hv) hmem
    · exact absurd hm hmem
  · subst hnil
    refine ⟨fun hl => absurd (Or.inr ⟨rfl, hmem⟩) hl, fun _ => ⟨?_, erase_ne_self hmem⟩,
      by rw [heq]; cases p <;> rfl⟩
    rw [heq]
    cases p <;> simp [resState, MState.setHand, MState.hand]
  · refine ⟨fun _ => heq, fun hl => ?_, by rw [heq]; rfl⟩
    rcases hl with hv' | ⟨hn, -⟩
    · rw [hv] at hv'; cases hv'
    · exact absurd hn hne
  · refine ⟨fun hl => absurd (Or.inl hv) hl, fun _ => ⟨?_, erase_ne_self hmem⟩,
      by rw [heq]; cases p <;> rfl⟩
    rw [heq]
    cases p <;> simp [resState, MState.setHand, MState.hand]
  · refine ⟨fun hl => absurd (Or.inl hv) hl, fun _ => ⟨?_, erase_ne_self hmem⟩,
      by rw [heq]; cases p <;> rfl⟩
    rw [heq]
    cases p <;>
      simp [resState, MState.setHand, MState.setTricks, MState.hand]

/-- Witness for C2 at a concrete illegal play: the card is not in the
hand and the capture list is non-empty, so the call raises with only the
turn counter advanced. -/
theorem c2_verify_commit_witness :
    play_card
      { deck := [], tabletop := [⟨3,0⟩], hand1 := [], hand2 := [],
        tricks1 := [], tricks2 := [], lastPlayerToPickup := none,
        turnNumber := 7 }
      Player.P1 ⟨5,0⟩ [⟨3,0⟩]
    = .error { deck := [], tabletop := [⟨3,0⟩], hand1 := [], hand2 := [],
               tricks1 := [], tricks2 := [], lastPlayerToPickup := none,
               turnNumber := 8 } :=
  (c2_verify_commit _ Player.P1 ⟨5,0⟩ [⟨3,0⟩]).1 (by decide)

/-- Counterexample to C2 as stated: a rejected play does NOT leave every
component of the match state unchanged — the turn counter has been
incremented when `play_card` raises. -/
theorem c2_counterexample :
    (play_card
      { deck := [], tabletop := [], hand1 := [], hand2 := [], tricks1 := [],
        tricks2 := [], lastPlayerToPickup := none, turnNumber := 0 }
      Player.P1 ⟨5,0⟩ [⟨3,0⟩]).isOk = false
    ∧ (resState (play_card
        { deck := [], tabletop := [], hand1 := [], hand2 := [], tricks1 := [],
          tricks2 := [], lastPlayerToPickup := none, turnNumber := 0 }
        Player.P1 ⟨5,0⟩ [⟨3,0⟩])).turnNumber ≠ 0 := by
  decide

/-- C3 (amended): with deals to the players restricted to states where
both hands are empty — the way the driver deals — every reachable
state's cards form exactly the 40-card deck. -/
theorem c3_conservation (σ : MState) (h : ReachA σ) :
    cardsOf σ = (fullDeck : Multiset Card) :=
  reachA_conservation h

/-- Witness for C3: the state after dealing the tabletop from the test
deck is reachable and conserves the 40 cards. -/
theorem c3_conservation_witness :
    cardsOf ((dealToTable (initState testDeck)).getD (initState []))
      = (fullDeck : Multiset Card) := by
  have hs : (dealToTable (initState testDeck)).isSome = true := by decide
  have he := option_eq_some_getD (dealToTable (initState testDeck))
    (initState []) hs
  exact c3_conservation _
    (ReachA.dealTable _ _ (ReachA.init testDeck (by decide)) he.symm)

/-- Counterexample to C3 as stated: the claim's reachability places no
restriction on when `deal_cards_to_players` may run, but that operation
REPLACES the hands; dealing twice in a row from a fresh match loses the
first six cards, breaking conservation on a state the claim calls
reachable. -/
theorem c3_counterexample :
    Reach0 ((dealToPlayers ((dealToPlayers (initState testDeck)).getD
        (initState []))).getD (initState []))
    ∧ cardsOf ((dealToPlayers ((dealToPlayers (initState testDeck)).getD
        (initState []))).getD (initState []))
      ≠ (fullDeck : Multiset Card) := by
  have h1 : (dealToPlayers (initState testDeck)).isSome = true := by decide
  have he1 := option_eq_some_getD (dealToPlayers (initState testDeck))
    (initState []) h1
  have h2 : (dealToPlayers ((dealToPlayers (initState testDeck)).getD
      (initState []))).isSome = true := by decide
  have he2 := option_eq_some_getD _ (initState []) h2
  refine ⟨Reach0.dealPlayers _ _
    (Reach0.dealPlayers _ _ (Reach0.init testDeck (by decide)) he1.symm)
    he2.symm, ?_⟩
  decide

/-- C4: whenever some tabletop card matches the played card's value,
`verify_play` rejects every multi-card capture, and `possible_plays`
never lists a pair with more than one captured card for such a played
card. -/
theorem c4_single_exact_match (σ : MState) (p : Player) :
    (∀ x ∈ possible_plays σ p,
        (∃ t ∈ σ.tabletop, t.value = x.1.value) → x.2.length ≤ 1)
    ∧ ∀ (c : Card) (cft : List Card),
        (∃ t ∈ σ.tabletop, t.value = c.value) → 1 < cft.length →
          verify_play σ p c cft = false := by
  constructor
  · intro x hx hex
    by_contra hlen
    push_neg at hlen
    rcases mem_possible_plays_cases hx with hc | ⟨h2, -, -⟩
    · have hv := (mem_capture_plays.1 hc).2.2.2
      rw [verify_play_false_of_exact_match hex hlen] at hv
      cases hv
    · rw [h2] at hlen
      simp at hlen
  · intro c cft hex hlen
    exact verify_play_false_of_exact_match hex hlen

/-- Witness for C4: the table holds a 5, so capturing 2+3 with a 5 is
rejected. -/
theorem c4_single_exact_match_witness :
    verify_play
      { deck := [], tabletop := [⟨5,0⟩, ⟨2,2⟩, ⟨3,3⟩], hand1 := [⟨5,1⟩],
        hand2 := [], tricks1 := [], tricks2 := [],
        lastPlayerToPickup := none, turnNumber := 0 }
      Player.P1 ⟨5,1⟩ [⟨2,2⟩, ⟨3,3⟩] = false :=
  (c4_single_exact_match _ Player.P1).2 ⟨5,1⟩ [⟨2,2⟩, ⟨3,3⟩]
    ⟨⟨5,0⟩, by decide, rfl⟩ (by decide)

/-- C5 (amended): `possible_plays` lists exactly the capture pairs
accepted by `verify_play` (a hand card may appear with SEVERAL distinct
captures), in nondecreasing capture-size order, followed by one
placement pair for exactly the hand cards with no capture; each card
appears at most once with an empty capture.  (The hand is assumed to
hold real cards, of value at least 1.) -/
theorem c5_possible_plays (σ : MState) (p : Player)
    (hval : ∀ c ∈ σ.hand p, 1 ≤ c.value) :
    (∀ x ∈ possible_plays σ p, x.2 ≠ [] → verify_play σ p x.1 x.2 = true)
    ∧ (∀ (c : Card) (s : List Card), s.Sublist σ.tabletop → s ≠ [] →
        verify_play σ p c s = true → (c, s) ∈ possible_plays σ p)
    ∧ (∃ pls, possible_plays σ p = capture_plays σ p ++ pls
        ∧ (∀ x ∈ pls, x.2 = []) ∧ (∀ x ∈ capture_plays σ p, x.2 ≠ [])
        ∧ (capture_plays σ p).Pairwise fun a b => a.2.length ≤ b.2.length)
    ∧ (∀ c : Card, (c, ([] : List Card)) ∈ possible_plays σ p ↔
        c ∈ σ.hand p ∧ ∀ s, s ≠ [] → (c, s) ∉ possible_plays σ p)
    ∧ ∀ c : Card, (possible_plays σ p).count (c, ([] : List Card)) ≤ 1 := by
  refine ⟨?_, ?_, ?_, ?_, ?_⟩
  · intro x hx hne
    rcases mem_possible_plays_cases hx with hc | ⟨h2, -, -⟩
    · exact (mem_capture_plays.1 hc).2.2.2
    · exact absurd h2 hne
  · intro c s hsub hne hv
    refine capture_mem_possible_plays (mem_capture_plays.2 ⟨hsub, ?_, ?_, hv⟩)
    · exact verify_play_mem_hand hv
    · exact ((verify_play_eq_true_iff σ p c s).1 hv).2.2.1 hne
  · obtain ⟨tail, ht, hall⟩ := addPlacements_eq_append (σ.hand p) (capture_plays σ p)
    exact ⟨tail, ht, fun x hx => (hall x hx).1,
      fun x hx => capture_plays_snd_ne_nil hval hx, capture_plays_pairwise σ p⟩
  · intro c
    rw [placement_mem_iff hval]
    constructor
    · rintro ⟨h1, h2⟩
      refine ⟨h1, fun s hs hmem => ?_⟩
      rcases mem_possible_plays_cases hmem with hc | ⟨h3, -, -⟩
      · exact h2 (List.mem_map.2 ⟨(c, s), hc, rfl⟩)
      · exact hs h3
    · rintro ⟨h1, h2⟩
      refine ⟨h1, fun hc => ?_⟩
      obtain ⟨x, hx, hfst⟩ := List.mem_map.1 hc
      obtain ⟨c', s'⟩ := x
      obtain rfl : c' = c := hfst
      exact h2 s' (capture_plays_snd_ne_nil hval hx)
        (capture_mem_possible_plays hx)
  · intro c
    exact possible_plays_count_le_one hval

/-- Witness for C5 at the documented test state: the exact single-card
capture of 8B by 8D is listed. -/
theorem c5_possible_plays_witness :
    (⟨⟨8,2⟩, [⟨8,3⟩]⟩ : Card × List Card) ∈ possible_plays
      { deck := [], tabletop := [⟨8,3⟩, ⟨1,1⟩, ⟨1,3⟩, ⟨9,0⟩],
        hand1 := [⟨3,2⟩, ⟨6,0⟩, ⟨4,2⟩], hand2 := [⟨7,0⟩, ⟨9,3⟩, ⟨8,2⟩],
        tricks1 := [], tricks2 := [], lastPlayerToPickup := none,
        turnNumber := 0 } Player.P2 :=
  (c5_possible_plays _ Player.P2 (by decide)).2.1 ⟨8,2⟩ [⟨8,3⟩]
    (by decide) (by decide) (by decide)

/-- Counterexample to C5 as stated: with table 3S 4C 2D 5B and hand 7S,
the played card 7S appears TWICE with a non-empty capture
({3S,4C} and {2D,5B}), refuting "each hand card appears at most once
with a non-empty capture". -/
theorem c5_counterexample :
    2 ≤ (possible_plays
      { deck := [], tabletop := [⟨3,0⟩, ⟨4,1⟩, ⟨2,2⟩, ⟨5,3⟩],
        hand1 := [⟨7,0⟩], hand2 := [], tricks1 := [], tricks2 := [],
        lastPlayerToPickup := none, turnNumber := 0 } Player.P1).countP
        fun x => decide (x.1 = ⟨7,0⟩) && !x.2.isEmpty := by
  decide

/-- C6: `score_match` awards each player scopas plus the three
strict-majority/settebello points plus the strict primiera comparison
point, with no card, denari or primiera point on the respective tie. -/
theorem c6_score_match (pile1 pile2 : List Trick) :
    score_match pile1 pile2 = (specAward pile1 pile2, specAward pile2 pile1) := by
  simp only [score_match, specAward]
  rw [tallyPile_numScopas pile1, tallyPile_numCards pile1,
    tallyPile_numDenari pile1, tallyPile_settebello pile1,
    primieraSum_tallyPile pile1, tallyPile_numScopas pile2,
    tallyPile_numCards pile2, tallyPile_numDenari pile2,
    tallyPile_settebello pile2, primieraSum_tallyPile pile2]
  rcases lt_trichotomy (specPrimiera pile1) (specPrimiera pile2) with h | h | h
  · have hA : ¬(specPrimiera pile2 < specPrimiera pile1) := by omega
    rw [if_neg hA, if_pos h, if_neg hA, if_pos h]
    simp
  · have hA : ¬(specPrimiera pile2 < specPrimiera pile1) := by omega
    have hB : ¬(specPrimiera pile1 < specPrimiera pile2) := by omega
    rw [if_neg hA, if_neg hB, if_neg hA, if_neg hB]
    simp
  · have hB : ¬(specPrimiera pile1 < specPrimiera pile2) := by omega
    rw [if_pos h, if_pos h, if_neg hB]
    simp

/-- C7: the primiera component of `tally_tricks` is the sum over the
four suits of the maximum point value of the pile's cards of that suit
under the fixed table (empty suit contributing 0); a pile holding the
four sevens scores 21 * 4 = 84. -/
theorem c7_primiera :
    (∀ pile : List Trick, (tally_tricks pile).2.2.2.2.1 = specPrimiera pile)
    ∧ (tally_tricks [⟨some ⟨7,0⟩, [⟨7,1⟩, ⟨7,2⟩, ⟨7,3⟩], 0⟩]).2.2.2.2.1 = 84 := by
  constructor
  · intro pile
    exact primieraSum_tallyPile pile
  · decide

/-- C8 (amended): every token "1".."10" + suit letter parses to the
corresponding pair; more generally ANY value prefix accepted by Python
`int()` (optional surrounding whitespace, optional sign, digits with
underscore grouping) followed by a valid suit letter parses to the
unchecked `(value, suit)` pair — there is no range check, so "11S",
" 7S", "1_0S" and "-3D" all succeed; parsing fails when the final
character is not one of S, C, D, B (including lowercase) or when the
value prefix is rejected by `int()`. -/
theorem c8_card_parsing :
    (∀ v : Nat, 1 ≤ v → v ≤ 9 → ∀ i : Fin 4,
        card_from_str [Char.ofNat (v + 48), SUIT_SHORTNAMES.getD i.val 'S']
          = some ((v : Int), i.val))
    ∧ (∀ i : Fin 4, card_from_str ['1', '0', SUIT_SHORTNAMES.getD i.val 'S']
        = some ((10 : Int), i.val))
    ∧ (∀ i : Fin 4, card_from_str ['1', '1', SUIT_SHORTNAMES.getD i.val 'S']
        = some ((11 : Int), i.val))
    ∧ (∀ (cs : List Char) (v : Int) (ch : Char) (i : Nat),
        pythonInt cs = some v → SUIT_SHORTNAMES.indexOf? ch = some i →
          card_from_str (cs ++ [ch]) = some (v, i))
    ∧ (card_from_str [' ', '7', 'S'] = some (7, 0)
        ∧ card_from_str ['1', '_', '0', 'S'] = some (10, 0)
        ∧ card_from_str ['-', '3', 'D'] = some (-3, 2))
    ∧ (∀ (cs : List Char) (ch : Char), cs.getLast? = some ch →
        ch ∉ SUIT_SHORTNAMES → card_from_str cs = none)
    ∧ (∀ cs : List Char, pythonInt cs.dropLast = none →
        card_from_str cs = none) := by
  refine ⟨?_, ?_, ?_, ?_, ?_, ?_, ?_⟩
  · intro v h1 h9 i
    interval_cases v <;> fin_cases i <;> decide
  · intro i
    fin_cases i <;> decide
  · intro i
    fin_cases i <;> decide
  · intro cs v ch i hpi hidx
    unfold card_from_str
    rw [List.dropLast_concat, hpi]
    dsimp only
    rw [List.getLast?_concat]
    dsimp only
    rw [hidx]
  · exact ⟨by decide, by decide, by decide⟩
  · intro cs ch hlast hmem
    unfold card_from_str
    cases hpi : pythonInt cs.dropLast with
    | none => rfl
    | some v =>
      dsimp only
      rw [hlast]
      dsimp only
      rw [show SUIT_SHORTNAMES.indexOf? ch = none from
        List.indexOf?_eq_none_iff.2 fun x hx hxe =>
          hmem ((by simpa using hxe : x = ch) ▸ hx)]
  · intro cs hpi
    unfold card_from_str
    rw [hpi]

/-- Witness for C8: the valid token "7D" parses; a whitespace-prefixed
value accepted by Python int parses via the general clause; and the
lowercase token "7d" fails. -/
theorem c8_card_parsing_witness :
    card_from_str ['7', 'D'] = some (7, 2)
      ∧ card_from_str ([' ', '1', '_', '2'] ++ ['B']) = some (12, 3)
      ∧ card_from_str ['7', 'd'] = none := by
  refine ⟨?_, ?_, ?_⟩
  · exact c8_card_parsing.1 7 (by decide) (by decide) 2
  · exact c8_card_parsing.2.2.2.1 [' ', '1', '_', '2'] 12 'B' 3
      (by decide) (by decide)
  · exact c8_card_parsing.2.2.2.2.2.1 ['7', 'd'] 'd' rfl (by decide)

/-- Counterexample to C8 as stated: the out-of-domain token "11S"
(value 11, outside 1..10) does NOT fail — it parses to the unchecked
pair (11, Spade). -/
theorem c8_counterexample : card_from_str ['1', '1', 'S'] = some (11, 0) := by
  decide

/-- C9: at the end of a driver match (deck exhausted, hands played out),
a non-empty tabletop is swept as the synthetic trick
`(none, tabletop, 0)` to the last player who captured — such a player
exists; and in the no-capture case the sweep is a failure-free no-op
(that case in fact cannot arise in a full driver match, so the
implication holds vacuously). -/
theorem c9_final_sweep (σ : MState) (hr : DriverReach σ) (hdeck : σ.deck = [])
    (hh1 : σ.hand1 = []) (hh2 : σ.hand2 = []) :
    (∀ p, σ.lastPlayerToPickup = some p → σ.tabletop ≠ [] →
        finalSweep σ = some (sweepTo σ p))
    ∧ (σ.tabletop ≠ [] → σ.lastPlayerToPickup ≠ none)
    ∧ ((σ.tricks1 = [] ∧ σ.tricks2 = []) → finalSweep σ = some σ) := by
  refine ⟨?_, ?_, ?_⟩
  · intro p hl ht
    unfold finalSweep
    rw [if_pos ht, hl]
  · intro ht hl
    obtain ⟨h1, h2⟩ := driver_last_none_tricks hr hl
    exact driver_not_all_placements hr hdeck hh1 hh2 h1 h2
  · rintro ⟨h1, h2⟩
    exact (driver_not_all_placements hr hdeck hh1 hh2 h1 h2).elim

/-- Witness for C9: the deterministic test-deck match ends with five
cards on the table and Player 2 as last capturer; the sweep hands them
to Player 2. -/
theorem c9_final_sweep_witness :
    greedyFinal.lastPlayerToPickup = some Player.P2
      ∧ finalSweep greedyFinal = some (sweepTo greedyFinal Player.P2) := by
  have hs : greedyRun.isSome = true := by decide
  have he : greedyRun = some greedyFinal :=
    option_eq_some_getD greedyRun (initState []) hs
  unfold greedyRun at he
  obtain ⟨σ0, hdt, hloop⟩ := Option.bind_eq_some.1 he
  have h0 : DriverReach σ0 := DriverReach.start testDeck σ0 (by decide) hdt
  have hrf : DriverReach greedyFinal := greedyLoop_reach 7 h0 hloop
  have hdeck : greedyFinal.deck = [] := greedyLoop_deck 7 hloop
  have hh1 : greedyFinal.hand1 = [] := by decide
  have hh2 : greedyFinal.hand2 = [] := by decide
  have hlast : greedyFinal.lastPlayerToPickup = some Player.P2 := by decide
  have htab : greedyFinal.tabletop ≠ [] := by decide
  exact ⟨hlast,
    (c9_final_sweep greedyFinal hrf hdeck hh1 hh2).1 Player.P2 hlast htab⟩

/-- C10: `verify_play` accepts a duplicated capture list — each entry's
tabletop membership is checked individually while the value sum counts
both occurrences. -/
theorem c10_duplicate_capture (σ : MState) (p : Player) (c t : Card)
    (hcount : σ.tabletop.count t = 1)
    (hnom : ∀ u ∈ σ.tabletop, u.value ≠ c.value)
    (hdouble : 2 * t.value = c.value) (hmem : c ∈ σ.hand p) :
    verify_play σ p c [t, t] = true := by
  rw [verify_play_eq_true_iff]
  have ht : t ∈ σ.tabletop := List.count_pos_iff.1 (by omega)
  refine ⟨hmem, ?_, ?_, ?_⟩
  · intro x hx
    rcases List.mem_cons.1 hx with rfl | hx'
    · exact ht
    · obtain rfl : x = t := by simpa using hx'
      exact ht
  · intro _
    simp only [List.map_cons, List.map_nil, List.sum_cons, List.sum_nil]
    omega
  · intro _
    intro hmap
    obtain ⟨u, hu, hue⟩ := List.mem_map.1 hmap
    exact hnom u hu hue

/-- Witness for C10: with 3C exactly once on the table and 6S in hand,
the duplicated capture list [3C, 3C] verifies. -/
theorem c10_duplicate_capture_witness :
    verify_play
      { deck := [], tabletop := [⟨3,1⟩, ⟨1,2⟩], hand1 := [⟨6,0⟩],
        hand2 := [], tricks1 := [], tricks2 := [],
        lastPlayerToPickup := none, turnNumber := 0 }
      Player.P1 ⟨6,0⟩ [⟨3,1⟩, ⟨3,1⟩] = true :=
  c10_duplicate_capture _ Player.P1 ⟨6,0⟩ ⟨3,1⟩ (by decide) (by decide)
    (by decide) (by decide)

end Scopa
